import Mathlib

/-
Verification of ae_measure2.py (AE_ML_Comparative).

The Python source is shallowly embedded below.  The clipping / channel
utilities work on exact rationals (their float arithmetic is modelled
exactly), while the spectral pipeline (fft, wave2vec) is modelled over the
real numbers, with numpy's DFT written out via complex exponentials.
Python exceptions are modelled by Except / Option results.
-/

namespace AE

/-! ### numpy rounding, modelled exactly

np.round rounds halves to the even neighbour.  We model it on rationals:
round to `decimals=2` is round-half-even of 100*x, divided by 100. -/

/-- Round to the nearest integer, sending exact halves to the even
neighbour, as numpy's round does. -/
def roundHalfEven (x : ℚ) : ℤ :=
  if x - ⌊x⌋ = 1/2 then (if 2 ∣ ⌊x⌋ then ⌊x⌋ else ⌊x⌋ + 1) else round x

/-- Model of np.round(x, decimals=2). -/
def round2 (x : ℚ) : ℚ := (roundHalfEven (100 * x) : ℚ) / 100

/-- np.max of the 2-decimal roundings of the absolute values of the signal
(line 94 of the source).  For a nonempty signal the extra 0 seeded into the
fold never changes the maximum, every rounded absolute value being
nonnegative; np.max on an empty signal raises, so callers assume
nonemptiness. -/
def roundedMaxAbs (sig : List ℚ) : ℚ := (sig.map (fun x => round2 |x|)).foldr max 0

/-- is_clipped from ae_measure2.py (lines 85-98): take absolute values,
round to two decimals, take the maximum rounded value, then count how many
UNROUNDED absolute samples equal that rounded maximum; clipped iff the
count exceeds one. -/
def is_clipped (sig : List ℚ) : Bool :=
  decide (1 < (sig.filter (fun x => decide (|x| = roundedMaxAbs sig))).length)

/-- remove_clipped (lines 100-123), branch with timestamps supplied
(len(time) != 0): drop index i exactly when both channels are clipped,
keeping the four sequences in lockstep.  The Python loop runs over
parallel equal-length sequences; the simultaneous recursion below agrees
with it on equal-length inputs. -/
def remove_clipped_time :
    List (List ℚ) → List (List ℚ) → List ℤ → List ℚ →
      List (List ℚ) × List (List ℚ) × List ℤ × List ℚ
  | a :: as, b :: bs, e :: es, t :: ts =>
    let r := remove_clipped_time as bs es ts
    if is_clipped a && is_clipped b then r
    else (a :: r.1, b :: r.2.1, e :: r.2.2.1, t :: r.2.2.2)
  | _, _, _, _ => ([], [], [], [])

/-- remove_clipped (lines 124-136), branch without timestamps: the loop
body appends to holder4, a name never bound in this branch, so the first
surviving event raises NameError; only when every pair is dropped does the
function return the three empty sequences.  `none` models the raise. -/
def remove_clipped_noTime (v1 v2 : List (List ℚ)) (ev : List ℤ) :
    Option (List (List ℚ) × List (List ℚ) × List ℤ) :=
  if (v1.zip v2).all (fun p => is_clipped p.1 && is_clipped p.2) then some ([], [], [])
  else none

/-- The two return shapes of remove_clipped: the four filtered sequences
when the timestamp branch ran, the three filtered sequences when the
no-timestamp branch ran. -/
inductive RCResult
  | withTime (v1 v2 : List (List ℚ)) (ev : List ℤ) (time : List ℚ)
  | noTime (v1 v2 : List (List ℚ)) (ev : List ℤ)

/-- remove_clipped from ae_measure2.py (lines 100-136) with its dispatch on
len(time) != 0: a nonempty timestamp list selects the lockstep four-sequence
filter; an absent or empty timestamp list selects the branch that returns
the three empty sequences when every pair is dropped and raises NameError
otherwise (modelled by none). -/
def remove_clipped (v1 v2 : List (List ℚ)) (ev : List ℤ) (time : List ℚ) :
    Option RCResult :=
  if time.length ≠ 0 then
    some (.withTime (remove_clipped_time v1 v2 ev time).1
      (remove_clipped_time v1 v2 ev time).2.1
      (remove_clipped_time v1 v2 ev time).2.2.1
      (remove_clipped_time v1 v2 ev time).2.2.2)
  else
    (remove_clipped_noTime v1 v2 ev).map (fun r => .noTime r.1 r.2.1 r.2.2)

/-- Python max(abs(signal)) (lines 155, 172): peak absolute amplitude.
For a nonempty signal the seed 0 never changes the maximum; Python max on
an empty signal raises, so callers assume nonemptiness. -/
def peakAbs (s : List ℚ) : ℚ := (s.map (fun x => |x|)).foldr max 0

/-- max_sig from ae_measure2.py (lines 145-159). -/
def max_sig (signal1 signal2 : List ℚ) : List ℚ :=
  if peakAbs signal1 > peakAbs signal2 then signal1 else signal2

/-- min_sig from ae_measure2.py (lines 162-176). -/
def min_sig (signal1 signal2 : List ℚ) : List ℚ :=
  if peakAbs signal1 > peakAbs signal2 then signal2 else signal1

/-! ### The spectral pipeline, over ℝ -/

/-- Magnitude of the k-th DFT coefficient of the waveform, np.abs(np.fft.fft(y))[k]:
the modulus of the sum of y[m] * exp(-2*pi*i*m*k/n). -/
noncomputable def dftMag (y : List ℝ) (k : ℕ) : ℝ :=
  Complex.abs (∑ m in Finset.range y.length,
    ((y.getD m 0 : ℝ) : ℂ) *
      Complex.exp (-(2 * (Real.pi : ℂ) * Complex.I * m * k) / (y.length : ℂ)))

/-- np.fft.fftfreq(n, dt)[k]: k/(n*dt) for the first ceil(n/2) slots,
(k-n)/(n*dt) for the rest. -/
noncomputable def fftfreq (n : ℕ) (dt : ℝ) (k : ℕ) : ℝ :=
  if k < (n + 1) / 2 then (k : ℝ) / (n * dt) else ((k : ℝ) - n) / (n * dt)

/-- Lines 196-199 of fft: the raw spectrum paired with its frequencies
after the non-negative-frequency mask.  Line 199 masks z with np.where
applied to the ALREADY filtered w, which keeps the first len(w-filtered)
entries of z; we model exactly that with take. -/
noncomputable def fftBasePairs (dt : ℝ) (y : List ℝ) : List (ℝ × ℝ) :=
  let n := y.length
  let w1 := ((List.range n).map (fftfreq n dt)).filter (fun x => decide (0 ≤ x))
  w1.zip (((List.range n).map (dftMag y)).take w1.length)

/-- Lines 201-206 of fft: the optional band filters.  Each masks z first
with the boolean mask of the current w, then w with the same mask, i.e.
filters the zipped pairs by the frequency component. -/
noncomputable def fftPairs (dt : ℝ) (y : List ℝ) (low_pass high_pass : Option ℝ) :
    List (ℝ × ℝ) :=
  let p1 := match low_pass with
    | none => fftBasePairs dt y
    | some lp => (fftBasePairs dt y).filter (fun q => decide (lp < q.1))
  match high_pass with
  | none => p1
  | some hp => p1.filter (fun q => decide (q.1 < hp))

/-- fft from ae_measure2.py (lines 183-208): the filtered frequency axis
and the correspondingly filtered magnitudes. -/
noncomputable def fft (dt : ℝ) (y : List ℝ) (low_pass high_pass : Option ℝ) :
    List ℝ × List ℝ :=
  ((fftPairs dt y low_pass high_pass).map Prod.fst,
   (fftPairs dt y low_pass high_pass).map Prod.snd)

/-- np.interp(x, xp, fp) on a sorted knot list: clamp to the edge values
outside the knot range, linear interpolation between consecutive knots.
numpy raises on an empty knot list; the 0 returned here is never relied
upon (wave2vec guards that case as an error). -/
noncomputable def interp (x : ℝ) : List (ℝ × ℝ) → ℝ
  | [] => 0
  | [(_, f0)] => f0
  | (x0, f0) :: (x1, f1) :: rest =>
    if x ≤ x0 then f0
    else if x ≤ x1 then f0 + (f1 - f0) * (x - x0) / (x1 - x0)
    else interp x ((x1, f1) :: rest)

/-- scipy's basic Simpson sum with dx=1: count slabs, slab t spanning
indices start+2t .. start+2t+2. -/
noncomputable def basic_simpson (y : List ℝ) (start count : ℕ) : ℝ :=
  ∑ t in Finset.range count,
    (1/3) * (y.getD (start + 2*t) 0 + 4 * y.getD (start + 2*t + 1) 0
             + y.getD (start + 2*t + 2) 0)

/-- scipy.integrate.simps(y) with dx=1 and the default even='avg'
handling: an odd number of samples uses plain Simpson; an even number
averages the trapezoid-first and trapezoid-last corrections.  For a list
of length N the Simpson slab counts are (N-1)/2 resp. (N-2)/2, matching
scipy's slicing (including the empty-broadcast edge case at N=2). -/
noncomputable def simps (y : List ℝ) : ℝ :=
  if y.length % 2 = 1 then basic_simpson y 0 ((y.length - 1) / 2)
  else ((1/2) * (y.getD (y.length - 1) 0 + y.getD (y.length - 2) 0)
        + (1/2) * (y.getD 1 0 + y.getD 0 0)) / 2
       + (basic_simpson y 0 ((y.length - 2) / 2)
          + basic_simpson y 1 ((y.length - 2) / 2)) / 2

/-- np.linspace(lower, upper, upsample)/FFT_units (line 291): the i-th grid
point is (lower + i*(upper-lower)/(upsample-1))/FFT_units. -/
noncomputable def upsampGrid (lower upper FFT_units : ℝ) (upsample : ℕ) : List ℝ :=
  (List.range upsample).map
    (fun (i : ℕ) => (lower + (i : ℝ) * ((upper - lower) / ((upsample : ℝ) - 1))) / FFT_units)

/-- The knot list handed to np.interp in wave2vec (line 292): the fft of
the waveform band-limited to (lower, upper), frequencies rescaled by
FFT_units, zipped with the magnitudes. -/
noncomputable def waveKnots (dt : ℝ) (waveform : List ℝ) (lower upper FFT_units : ℝ) :
    List (ℝ × ℝ) :=
  ((fft dt waveform (some lower) (some upper)).1.map (fun w => w / FFT_units)).zip
    (fft dt waveform (some lower) (some upper)).2

/-- upsampled_z of wave2vec: the spectrum interpolated onto the grid. -/
noncomputable def upsampledZ (dt : ℝ) (waveform : List ℝ)
    (lower upper FFT_units : ℝ) (upsample : ℕ) : List ℝ :=
  (upsampGrid lower upper FFT_units upsample).map
    (fun x => interp x (waveKnots dt waveform lower upper FFT_units))

/-- dw of wave2vec (line 293): upsampled_w[1] - upsampled_w[0]. -/
noncomputable def gridStep (lower upper FFT_units : ℝ) (upsample : ℕ) : ℝ :=
  (upsampGrid lower upper FFT_units upsample).getD 1 0
    - (upsampGrid lower upper FFT_units upsample).getD 0 0

/-- The unnormalized sub-band masses of wave2vec (lines 298-301): for each
j < dims, simps of the slice of upsampled_z of width
interval_width = upsample / dims starting at j*interval_width. -/
noncomputable def massList (dt : ℝ) (waveform : List ℝ)
    (lower upper : ℝ) (dims : ℕ) (FFT_units : ℝ) (upsample : ℕ) : List ℝ :=
  (List.range dims).map (fun j =>
    simps (((upsampledZ dt waveform lower upper FFT_units upsample).drop
      (j * (upsample / dims))).take (upsample / dims)))

/-- true_bounds of wave2vec (line 303): lower/FFT_units + j*interval_width*dw. -/
noncomputable def trueBounds (lower upper FFT_units : ℝ) (dims upsample : ℕ) : List ℝ :=
  (List.range dims).map (fun (j : ℕ) =>
    lower / FFT_units + (j : ℝ) * ((upsample / dims : ℕ) : ℝ)
      * gridStep lower upper FFT_units upsample)

/-- true_upper_bound of wave2vec (line 306): after the loop j = dims-1, so
(j+1)*interval_width*dw + lower/FFT_units = dims*interval_width*dw + lower/FFT_units. -/
noncomputable def trueUpperBound (lower upper FFT_units : ℝ) (dims upsample : ℕ) : ℝ :=
  (dims : ℝ) * ((upsample / dims : ℕ) : ℝ) * gridStep lower upper FFT_units upsample
    + lower / FFT_units

/-- How a wave2vec call can fail: the explicit ValueError of line 310
(increase the upsampling number), or one of the numpy/scipy errors raised
earlier (fft of an empty waveform, np.interp with an empty knot list,
indexing upsampled_w[1] with upsample < 2, int(len/dims) with dims = 0,
simps of an empty slice when interval_width = 0). -/
inductive W2VError
  | increaseUpsampling
  | numericError

/-- wave2vec from ae_measure2.py (lines 276-312).  Failure cases are
listed in the order the Python statements raise; on success the feature
vector is the mass list divided by its sum, with the band edges and the
spacing interval_width*dw. -/
noncomputable def wave2vec (dt : ℝ) (waveform : List ℝ) (lower upper : ℝ)
    (dims : ℕ) (FFT_units : ℝ) (upsample : ℕ) :
    Except W2VError (List ℝ × List ℝ × ℝ) :=
  if waveform.length = 0 then .error .numericError
  else if (waveKnots dt waveform lower upper FFT_units).length = 0 then .error .numericError
  else if upsample < 2 then .error .numericError
  else if dims = 0 then .error .numericError
  else if upsample / dims = 0 then .error .numericError
  else if (upper / FFT_units - trueUpperBound lower upper FFT_units dims upsample)
      / (upper / FFT_units - lower / FFT_units) > 1/100 then
    .error .increaseUpsampling
  else
    .ok ((massList dt waveform lower upper dims FFT_units upsample).map
          (fun m => m / (massList dt waveform lower upper dims FFT_units upsample).sum),
         trueBounds lower upper FFT_units dims upsample,
         ((upsample / dims : ℕ) : ℝ) * gridStep lower upper FFT_units upsample)

/-! ### Helper lemmas: folds computing maxima -/

theorem foldr_max_le {L : List ℚ} {M : ℚ} (hub : ∀ y ∈ L, y ≤ M) (h0 : 0 ≤ M) :
    L.foldr max 0 ≤ M := by
  induction L with
  | nil => simpa using h0
  | cons a L ih =>
    simp only [List.foldr_cons, max_le_iff]
    exact ⟨hub a (List.mem_cons_self a L), ih fun y hy => hub y (List.mem_cons_of_mem a hy)⟩

theorem le_foldr_max {L : List ℚ} {M : ℚ} (hM : M ∈ L) : M ≤ L.foldr max 0 := by
  induction L with
  | nil => cases hM
  | cons a L ih =>
    rcases List.mem_cons.1 hM with rfl | h
    · exact le_max_left _ _
    · exact le_trans (ih h) (le_max_right _ _)

theorem roundHalfEven_nonneg {x : ℚ} (hx : 0 ≤ x) : 0 ≤ roundHalfEven x := by
  unfold roundHalfEven
  have hfl : (0 : ℤ) ≤ ⌊x⌋ := Int.floor_nonneg.2 hx
  split
  · split
    · exact hfl
    · omega
  · rw [round_eq]
    exact Int.floor_nonneg.2 (by linarith)

theorem round2_nonneg {x : ℚ} (hx : 0 ≤ x) : 0 ≤ round2 x := by
  unfold round2
  have : (0 : ℤ) ≤ roundHalfEven (100 * x) := roundHalfEven_nonneg (by linarith)
  positivity

theorem roundedMaxAbs_eq {sig : List ℚ} {M : ℚ}
    (hM : M ∈ sig.map (fun x => round2 |x|))
    (hub : ∀ y ∈ sig.map (fun x => round2 |x|), y ≤ M) :
    roundedMaxAbs sig = M := by
  have h0 : 0 ≤ M := by
    rcases List.mem_map.1 hM with ⟨x, _, rfl⟩
    exact round2_nonneg (abs_nonneg x)
  exact le_antisymm (foldr_max_le hub h0) (le_foldr_max hM)

/-! ### Claims about the clipping utilities -/

/-- C6: is_clipped returns true exactly when more than one (unrounded)
absolute sample attains the maximum M of the 2-decimal roundings of the
absolute values. -/
theorem C6_is_clipped_iff_repeated_rounded_peak (sig : List ℚ) (M : ℚ)
    (hM : M ∈ sig.map (fun x => round2 |x|))
    (hub : ∀ y ∈ sig.map (fun x => round2 |x|), y ≤ M) :
    is_clipped sig = true ↔ 1 < sig.countP (fun x => decide (|x| = M)) := by
  unfold is_clipped
  rw [roundedMaxAbs_eq hM hub, List.countP_eq_length_filter, decide_eq_true_iff]

/-- Evaluation of round2 at 1: the rounded value of an integer is itself. -/
theorem round2_one : round2 (1 : ℚ) = 1 := by
  unfold round2 roundHalfEven
  norm_num [round_eq]

/-- C6 witness: the signal [1, 1] has rounded maximum 1 attained twice, and
is reported clipped. -/
theorem C6_witness :
    is_clipped [(1 : ℚ), 1] = true
      ↔ 1 < List.countP (fun x => decide (|x| = 1)) [(1 : ℚ), 1] :=
  C6_is_clipped_iff_repeated_rounded_peak [1, 1] 1 (by simp [round2_one])
    (by simp [round2_one])

/-- C10: a flat waveform all of whose samples have the same absolute value
c is NOT reported clipped whenever c differs from its own 2-decimal
rounding, because no unrounded sample equals the rounded maximum. -/
theorem C10_flat_waveform_not_clipped (c : ℚ) (n : ℕ) (hn : 2 ≤ n)
    (hne : |c| ≠ round2 |c|) :
    is_clipped (List.replicate n c) = false := by
  have hmax : roundedMaxAbs (List.replicate n c) = round2 |c| := by
    apply roundedMaxAbs_eq
    · rw [List.map_replicate]
      exact List.mem_replicate.2 ⟨by omega, rfl⟩
    · intro y hy
      rw [List.map_replicate] at hy
      rw [List.eq_of_mem_replicate hy]
  unfold is_clipped
  rw [hmax]
  have hfil : (List.replicate n c).filter (fun x => decide (|x| = round2 |c|)) = [] := by
    apply List.filter_eq_nil_iff.2
    intro a ha
    rw [List.eq_of_mem_replicate ha]
    simpa using hne
  rw [hfil]
  simp

/-- Evaluation of round2 at 0.101: it rounds down to 0.10. -/
theorem round2_101_1000 : round2 (101/1000 : ℚ) = 1/10 := by
  unfold round2 roundHalfEven
  norm_num [round_eq]

/-- C10 witness: the constant signal of two samples 0.101 rounds to maximum
0.10, no unrounded sample equals it, and is_clipped answers false. -/
theorem C10_witness : is_clipped (List.replicate 2 ((101 : ℚ)/1000)) = false :=
  C10_flat_waveform_not_clipped (101/1000) 2 (by norm_num)
    (by rw [abs_of_nonneg (by norm_num : (0:ℚ) ≤ 101/1000), round2_101_1000]; norm_num)

/-- Evaluation of round2 at 1/2: 50 is already an integer, so the rounded
value is 1/2 itself. -/
theorem round2_half : round2 (1/2 : ℚ) = 1/2 := by
  unfold round2 roundHalfEven
  norm_num [round_eq]

/-- A single sample attains its own rounded maximum exactly once, so the
one-sample signal [1/2] is not clipped. -/
theorem is_clipped_half : is_clipped [(1 : ℚ)/2] = false := by
  have habs : |(1:ℚ)/2| = 1/2 := abs_of_nonneg (by norm_num)
  unfold is_clipped roundedMaxAbs
  simp only [List.map_cons, List.map_nil, habs, round2_half, List.foldr_cons,
    List.foldr_nil]
  rw [max_eq_left (by norm_num : (0:ℚ) ≤ 1/2)]
  simp [List.filter_cons, habs]

/-- C7: the no-timestamp branch of remove_clipped crashes (NameError on
holder4) as soon as one event pair survives the filter: here a single
unclipped pair on both channels survives, and the call errors instead of
returning the three filtered sequences. -/
theorem C7_no_timestamp_branch_fails :
    remove_clipped_noTime [[(1 : ℚ)/2]] [[(1 : ℚ)/2]] [1] = none := by
  unfold remove_clipped_noTime
  simp only [List.zip_cons_cons, List.zip_nil_right, List.all_cons, List.all_nil,
    is_clipped_half]
  simp

/-- Idempotence of the timestamp branch of remove_clipped: filtering the
output again removes nothing, every surviving pair having at least one
unclipped channel. -/
theorem remove_clipped_time_idem (as : List (List ℚ)) :
    ∀ (bs : List (List ℚ)) (es : List ℤ) (ts : List ℚ),
      remove_clipped_time (remove_clipped_time as bs es ts).1
        (remove_clipped_time as bs es ts).2.1
        (remove_clipped_time as bs es ts).2.2.1
        (remove_clipped_time as bs es ts).2.2.2
      = remove_clipped_time as bs es ts := by
  induction as with
  | nil => intro bs es ts; rfl
  | cons a as ih =>
    intro bs es ts
    cases bs with
    | nil => rfl
    | cons b bs =>
      cases es with
      | nil => rfl
      | cons e es =>
        cases ts with
        | nil => rfl
        | cons t ts =>
          by_cases h : (is_clipped a && is_clipped b) = true
          · simp only [remove_clipped_time, if_pos h]
            exact ih bs es ts
          · simp only [remove_clipped_time, if_neg h]
            rw [ih bs es ts]

/-- Both unrounded absolute samples of [1, 1] equal the rounded maximum 1,
so the signal is clipped. -/
theorem is_clipped_ones : is_clipped [(1 : ℚ), 1] = true := by
  have hmax : roundedMaxAbs [(1 : ℚ), 1] = 1 := by
    unfold roundedMaxAbs
    simp only [List.map_cons, List.map_nil, abs_one, round2_one, List.foldr_cons,
      List.foldr_nil]
    rw [max_eq_left (by norm_num : (0:ℚ) ≤ 1), max_self]
  unfold is_clipped
  rw [hmax]
  simp [List.filter_cons]

/-- A pair of fully clipped channels is dropped by the timestamp branch. -/
theorem rct_clipped_pair :
    remove_clipped_time [[(1 : ℚ), 1]] [[(1 : ℚ), 1]] [1] [1/2]
      = ([], [], [], []) := by
  simp [remove_clipped_time, is_clipped_ones]

/-- C8 counterexample: at v1 = [[1,1]], v2 = [[1,1]], ev = [1],
time = [0.5] (parallel, same length, timestamps supplied, both channels
clipped), remove_clipped returns the four empty sequences; re-applying
remove_clipped to that output dispatches on the now-empty timestamp list
to the no-timestamp branch and does NOT return the output unchanged (it
returns the three-sequence form), so remove_clipped is not idempotent as
claimed. -/
theorem C8_counterexample :
    remove_clipped [[(1 : ℚ), 1]] [[(1 : ℚ), 1]] [1] [1/2]
      = some (RCResult.withTime [] [] [] [])
    ∧ remove_clipped ([] : List (List ℚ)) [] [] []
      ≠ some (RCResult.withTime [] [] [] []) := by
  constructor
  · unfold remove_clipped
    rw [if_pos (by simp)]
    rw [rct_clipped_pair]
  · unfold remove_clipped
    rw [if_neg (by simp)]
    simp [remove_clipped_noTime]

/-- C8 (amended): remove_clipped with timestamps supplied is idempotent on
parallel same-length sequences PROVIDED at least one event pair survives
the filter: the call returns the four filtered sequences, and applying
remove_clipped to them returns exactly those sequences unchanged.  (When
no pair survives, the filtered timestamp list is empty and the
re-application dispatches to the no-timestamp branch: see the
counterexample.) -/
theorem C8_remove_clipped_idempotent_amended (v1 v2 : List (List ℚ))
    (ev : List ℤ) (time : List ℚ) (h1 : v1.length = v2.length)
    (h2 : v1.length = ev.length) (h3 : v1.length = time.length)
    (htime : time ≠ [])
    (hsurv : (remove_clipped_time v1 v2 ev time).2.2.2 ≠ []) :
    remove_clipped v1 v2 ev time
      = some (.withTime (remove_clipped_time v1 v2 ev time).1
          (remove_clipped_time v1 v2 ev time).2.1
          (remove_clipped_time v1 v2 ev time).2.2.1
          (remove_clipped_time v1 v2 ev time).2.2.2)
    ∧ remove_clipped (remove_clipped_time v1 v2 ev time).1
        (remove_clipped_time v1 v2 ev time).2.1
        (remove_clipped_time v1 v2 ev time).2.2.1
        (remove_clipped_time v1 v2 ev time).2.2.2
      = some (.withTime (remove_clipped_time v1 v2 ev time).1
          (remove_clipped_time v1 v2 ev time).2.1
          (remove_clipped_time v1 v2 ev time).2.2.1
          (remove_clipped_time v1 v2 ev time).2.2.2) := by
  constructor
  · have hc : time.length ≠ 0 := fun h0 => htime (List.length_eq_zero.1 h0)
    unfold remove_clipped
    rw [if_pos hc]
  · have hc2 : (remove_clipped_time v1 v2 ev time).2.2.2.length ≠ 0 :=
      fun h0 => hsurv (List.length_eq_zero.1 h0)
    unfold remove_clipped
    rw [if_pos hc2]
    rw [remove_clipped_time_idem v1 v2 ev time]

/-- Evaluation of round2 at 2: the rounded value of an integer is itself. -/
theorem round2_two : round2 (2 : ℚ) = 2 := by
  unfold round2 roundHalfEven
  norm_num [round_eq]

/-- A single sample attains its own rounded maximum exactly once, so the
one-sample signal [1] is not clipped. -/
theorem is_clipped_single_one : is_clipped [(1 : ℚ)] = false := by
  have hmax : roundedMaxAbs [(1 : ℚ)] = 1 := by
    unfold roundedMaxAbs
    simp only [List.map_cons, List.map_nil, abs_one, round2_one, List.foldr_cons,
      List.foldr_nil]
    exact max_eq_left (by norm_num)
  unfold is_clipped
  rw [hmax]
  simp [List.filter_cons]

/-- A single sample attains its own rounded maximum exactly once, so the
one-sample signal [2] is not clipped. -/
theorem is_clipped_single_two : is_clipped [(2 : ℚ)] = false := by
  have habs : |(2 : ℚ)| = 2 := abs_of_nonneg (by norm_num)
  have hmax : roundedMaxAbs [(2 : ℚ)] = 2 := by
    unfold roundedMaxAbs
    simp only [List.map_cons, List.map_nil, habs, round2_two, List.foldr_cons,
      List.foldr_nil]
    exact max_eq_left (by norm_num)
  unfold is_clipped
  rw [hmax]
  simp [List.filter_cons, habs]

/-- An event pair with neither channel clipped survives the timestamp
branch unchanged. -/
theorem rct_pair_survives :
    remove_clipped_time [[(1 : ℚ)]] [[(2 : ℚ)]] [1] [0]
      = ([[1]], [[2]], [1], [0]) := by
  simp [remove_clipped_time, is_clipped_single_one, is_clipped_single_two]

/-- C8 witness: a surviving singleton event pair; the call returns it and
refiltering through remove_clipped (with its dispatch) leaves it unchanged. -/
theorem C8_amended_witness :
    remove_clipped [[(1 : ℚ)]] [[(2 : ℚ)]] [1] [0]
      = some (.withTime (remove_clipped_time [[(1 : ℚ)]] [[(2 : ℚ)]] [1] [0]).1
          (remove_clipped_time [[(1 : ℚ)]] [[(2 : ℚ)]] [1] [0]).2.1
          (remove_clipped_time [[(1 : ℚ)]] [[(2 : ℚ)]] [1] [0]).2.2.1
          (remove_clipped_time [[(1 : ℚ)]] [[(2 : ℚ)]] [1] [0]).2.2.2)
    ∧ remove_clipped (remove_clipped_time [[(1 : ℚ)]] [[(2 : ℚ)]] [1] [0]).1
        (remove_clipped_time [[(1 : ℚ)]] [[(2 : ℚ)]] [1] [0]).2.1
        (remove_clipped_time [[(1 : ℚ)]] [[(2 : ℚ)]] [1] [0]).2.2.1
        (remove_clipped_time [[(1 : ℚ)]] [[(2 : ℚ)]] [1] [0]).2.2.2
      = some (.withTime (remove_clipped_time [[(1 : ℚ)]] [[(2 : ℚ)]] [1] [0]).1
          (remove_clipped_time [[(1 : ℚ)]] [[(2 : ℚ)]] [1] [0]).2.1
          (remove_clipped_time [[(1 : ℚ)]] [[(2 : ℚ)]] [1] [0]).2.2.1
          (remove_clipped_time [[(1 : ℚ)]] [[(2 : ℚ)]] [1] [0]).2.2.2) :=
  C8_remove_clipped_idempotent_amended [[1]] [[2]] [1] [0] rfl rfl rfl
    (by simp) (by rw [rct_pair_survives]; simp)



/-- C9: max_sig and min_sig together return exactly the two input signals:
one of them gets signal1 and the other signal2, they never coincide when
the inputs differ, and an exact tie of peak absolute amplitudes sends
max_sig to channel 2 and min_sig to channel 1 (the comparison is strict >
on channel 1's peak). -/
theorem C9_channel_selection_partition (a b : List ℚ) (ha : a ≠ []) (hb : b ≠ []) :
    ((max_sig a b = a ∧ min_sig a b = b) ∨ (max_sig a b = b ∧ min_sig a b = a))
    ∧ (a ≠ b → max_sig a b ≠ min_sig a b)
    ∧ (peakAbs a = peakAbs b → max_sig a b = b ∧ min_sig a b = a) := by
  unfold max_sig min_sig
  by_cases h : peakAbs a > peakAbs b
  · rw [if_pos h, if_pos h]
    exact ⟨Or.inl ⟨rfl, rfl⟩, fun hne => hne, fun htie => absurd htie (ne_of_gt h)⟩
  · rw [if_neg h, if_neg h]
    exact ⟨Or.inr ⟨rfl, rfl⟩, fun hne => hne.symm, fun _ => ⟨rfl, rfl⟩⟩

/-- C9 witness at the concrete pair [1], [2]: channel 2 has the larger
peak, so max_sig picks it and min_sig picks channel 1. -/
theorem C9_witness :
    ((max_sig [1] [2] = [1] ∧ min_sig [1] [2] = [2])
      ∨ (max_sig [1] [2] = [2] ∧ min_sig [1] [2] = [1]))
    ∧ (([1] : List ℚ) ≠ [2] → max_sig [1] [2] ≠ min_sig [1] [2])
    ∧ (peakAbs [1] = peakAbs [2] → max_sig [1] [2] = [2] ∧ min_sig [1] [2] = [1]) :=
  C9_channel_selection_partition [1] [2] (by simp) (by simp)

/-! ### Claim C5: structure of the fft output -/

theorem fftfreq_nonneg_of_lt {n : ℕ} {dt : ℝ} (hdt : 0 < dt) {k : ℕ}
    (h : k < (n + 1) / 2) : 0 ≤ fftfreq n dt k := by
  unfold fftfreq
  rw [if_pos h]
  positivity

theorem fftfreq_neg_of_ge {n : ℕ} {dt : ℝ} (hdt : 0 < dt) {k : ℕ} (hk : k < n)
    (h : ¬ k < (n + 1) / 2) : fftfreq n dt k < 0 := by
  unfold fftfreq
  rw [if_neg h]
  have hn : 0 < n := lt_of_le_of_lt (Nat.zero_le _) hk
  have hnum : ((k : ℝ) - n) < 0 := by
    have : (k : ℝ) < n := Nat.cast_lt.2 hk
    linarith
  have hden : (0 : ℝ) < (n : ℝ) * dt := by positivity
  exact div_neg_of_neg_of_pos hnum hden

theorem range_filter_lt (m n : ℕ) (h : m ≤ n) :
    (List.range n).filter (fun k => decide (k < m)) = List.range m := by
  induction n with
  | zero =>
    have hm : m = 0 := Nat.le_zero.1 h
    subst hm
    rfl
  | succ n ih =>
    rw [List.range_succ, List.filter_append]
    by_cases hm : m ≤ n
    · rw [ih hm]
      have h2 : ¬ (n < m) := not_lt.2 hm
      simp [h2]
    · have hm2 : m = n + 1 := by omega
      subst hm2
      have h1 : (List.range n).filter (fun k => decide (k < n + 1)) = List.range n :=
        List.filter_eq_self.2 (fun a ha => by
          simp [Nat.lt_succ_of_lt (List.mem_range.1 ha)])
      rw [h1, List.range_succ]
      simp

theorem fftBasePairs_eq {dt : ℝ} (hdt : 0 < dt) (y : List ℝ) :
    fftBasePairs dt y
      = (List.range ((y.length + 1) / 2)).map
          (fun k => (fftfreq y.length dt k, dftMag y k)) := by
  simp only [fftBasePairs]
  have hm : (y.length + 1) / 2 ≤ y.length := by omega
  have hw1 : ((List.range y.length).map (fftfreq y.length dt)).filter
      (fun x => decide (0 ≤ x))
      = (List.range ((y.length + 1) / 2)).map (fftfreq y.length dt) := by
    rw [List.filter_map]
    rw [← range_filter_lt ((y.length + 1) / 2) y.length hm]
    congr 1
    apply List.filter_congr
    intro k hk
    simp only [Function.comp_apply, decide_eq_decide]
    constructor
    · intro h0
      by_contra hge
      exact absurd h0 (not_le.2 (fftfreq_neg_of_ge hdt (List.mem_range.1 hk) hge))
    · intro hlt
      exact fftfreq_nonneg_of_lt hdt hlt
  rw [hw1]
  rw [List.length_map, List.length_range]
  rw [← List.map_take, List.take_range, Nat.min_eq_left hm]
  exact List.zip_map' _ _ _

theorem fftPairs_sublist (dt : ℝ) (y : List ℝ) (lp hp : Option ℝ) :
    (fftPairs dt y lp hp).Sublist (fftBasePairs dt y) := by
  unfold fftPairs
  cases lp with
  | none =>
    cases hp with
    | none => exact List.Sublist.refl _
    | some b => exact List.filter_sublist _
  | some a =>
    cases hp with
    | none => exact List.filter_sublist _
    | some b => exact (List.filter_sublist _).trans (List.filter_sublist _)

/-- C5: for dt > 0 and a nonempty waveform, fft returns two lists of equal
length; the frequencies are all nonnegative and strictly ascending; and the
retained (frequency, magnitude) pairs form a sublist of the original
DFT-indexed pairs (fftfreq k, dftMag k), i.e. each retained magnitude
corresponds to the same original DFT index as its retained frequency. -/
theorem C5_fft_structure (dt : ℝ) (y : List ℝ) (lp hp : Option ℝ)
    (hdt : 0 < dt) (hy : y ≠ []) :
    (fft dt y lp hp).1.length = (fft dt y lp hp).2.length
    ∧ (∀ x ∈ (fft dt y lp hp).1, 0 ≤ x)
    ∧ (fft dt y lp hp).1.Pairwise (· < ·)
    ∧ ((fft dt y lp hp).1.zip (fft dt y lp hp).2).Sublist
        ((List.range y.length).map (fun k => (fftfreq y.length dt k, dftMag y k))) := by
  have hbase := fftBasePairs_eq hdt y
  have hsub := fftPairs_sublist dt y lp hp
  rw [hbase] at hsub
  have hm : (y.length + 1) / 2 ≤ y.length := by omega
  refine ⟨by simp [fft], ?_, ?_, ?_⟩
  · intro x hx
    rcases List.mem_map.1 hx with ⟨q, hq, rfl⟩
    rcases List.mem_map.1 (hsub.subset hq) with ⟨k, hk, rfl⟩
    exact fftfreq_nonneg_of_lt hdt (List.mem_range.1 hk)
  · have hpair : ((List.range ((y.length + 1) / 2)).map
        (fun k => (fftfreq y.length dt k, dftMag y k))).Pairwise
          (fun a b => a.1 < b.1) := by
      rw [List.pairwise_map]
      refine (List.pairwise_lt_range _).imp_of_mem ?_
      intro i j hi hj hij
      have hi2 : i < (y.length + 1) / 2 := List.mem_range.1 hi
      have hj2 : j < (y.length + 1) / 2 := List.mem_range.1 hj
      have hn : 0 < y.length := List.length_pos.2 hy
      have hden : (0 : ℝ) < (y.length : ℝ) * dt := by positivity
      show fftfreq y.length dt i < fftfreq y.length dt j
      unfold fftfreq
      rw [if_pos hi2, if_pos hj2]
      exact (div_lt_div_iff_of_pos_right hden).2 (Nat.cast_lt.2 hij)
    have hp2 : (fftPairs dt y lp hp).Pairwise (fun a b => a.1 < b.1) :=
      hpair.sublist hsub
    simpa [fft, List.pairwise_map] using hp2
  · have hzip : ((fft dt y lp hp).1.zip (fft dt y lp hp).2)
        = fftPairs dt y lp hp := by
      simp only [fft]
      rw [List.zip_map']
      simp
    rw [hzip]
    exact hsub.trans (((List.range_sublist).2 hm).map _)

/-- C5 witness at dt = 1, waveform [1, 0], no band filters. -/
theorem C5_witness :
    (fft 1 [1, 0] none none).1.length = (fft 1 [1, 0] none none).2.length
    ∧ (∀ x ∈ (fft 1 [1, 0] none none).1, 0 ≤ x)
    ∧ (fft 1 [1, 0] none none).1.Pairwise (· < ·)
    ∧ ((fft 1 [1, 0] none none).1.zip (fft 1 [1, 0] none none).2).Sublist
        ((List.range ([(1:ℝ), 0].length)).map
          (fun k => (fftfreq ([(1:ℝ), 0].length) 1 k, dftMag [1, 0] k))) :=
  C5_fft_structure 1 [1, 0] none none (by norm_num) (by simp)

/-! ### wave2vec: success characterization and evaluation helpers -/

theorem wave2vec_eq_ok_iff {dt lower upper FFT_units : ℝ} {y : List ℝ}
    {dims upsample : ℕ} {r : List ℝ × List ℝ × ℝ} :
    wave2vec dt y lower upper dims FFT_units upsample = .ok r ↔
      ¬(y.length = 0)
      ∧ ¬((waveKnots dt y lower upper FFT_units).length = 0)
      ∧ ¬(upsample < 2)
      ∧ ¬(dims = 0)
      ∧ ¬(upsample / dims = 0)
      ∧ ¬((upper / FFT_units - trueUpperBound lower upper FFT_units dims upsample)
            / (upper / FFT_units - lower / FFT_units) > 1/100)
      ∧ r = ((massList dt y lower upper dims FFT_units upsample).map
              (fun m => m / (massList dt y lower upper dims FFT_units upsample).sum),
             trueBounds lower upper FFT_units dims upsample,
             ((upsample / dims : ℕ) : ℝ) * gridStep lower upper FFT_units upsample) := by
  constructor
  · intro h
    unfold wave2vec at h
    split at h
    · exact absurd h (by simp)
    · split at h
      · exact absurd h (by simp)
      · split at h
        · exact absurd h (by simp)
        · split at h
          · exact absurd h (by simp)
          · split at h
            · exact absurd h (by simp)
            · split at h
              · exact absurd h (by simp)
              · refine ⟨by assumption, by assumption, by assumption, by assumption,
                  by assumption, by assumption, (Except.ok.inj h).symm⟩
  · rintro ⟨h1, h2, h3, h4, h5, h6, rfl⟩
    unfold wave2vec
    rw [if_neg h1, if_neg h2, if_neg h3, if_neg h4, if_neg h5, if_neg h6]

theorem sum_map_div (l : List ℝ) (s : ℝ) :
    (l.map (fun m => m / s)).sum = l.sum / s := by
  induction l with
  | nil => simp
  | cons a l ih => simp [ih, add_div]

/-! Evaluation of the pipeline at the concrete instance
dt = 1, waveform = [1], lower = -1, upper = 1, dims = 1, FFT_units = 1,
upsample = 2.  The single DFT coefficient is 1 at frequency 0; the grid is
[-1, 1]; the interpolated spectrum is the constant 1; the single Simpson
mass is 1. -/

theorem dftMag_single : dftMag [1] 0 = 1 := by
  unfold dftMag
  simp

theorem fftfreq_single : fftfreq 1 1 0 = 0 := by
  norm_num [fftfreq]

theorem list_range_one : List.range 1 = [0] := rfl

theorem fftBasePairs_single : fftBasePairs 1 [1] = [(0, 1)] := by
  norm_num [fftBasePairs, list_range_one, fftfreq_single, dftMag_single,
    List.filter_cons]

theorem fftPairs_single : fftPairs 1 [1] (some (-1)) (some 1) = [(0, 1)] := by
  simp only [fftPairs, fftBasePairs_single]
  norm_num [List.filter_cons]

theorem fft_single : fft 1 [1] (some (-1)) (some 1) = ([0], [1]) := by
  simp [fft, fftPairs_single]

theorem waveKnots_single : waveKnots 1 [1] (-1) 1 1 = [(0, 1)] := by
  simp [waveKnots, fft_single]

theorem upsampGrid_single : upsampGrid (-1) 1 1 2 = [-1, 1] := by
  unfold upsampGrid
  norm_num [List.range_succ]

theorem upsampledZ_single : upsampledZ 1 [1] (-1) 1 1 2 = [1, 1] := by
  unfold upsampledZ
  rw [waveKnots_single, upsampGrid_single]
  simp [interp]

theorem gridStep_single : gridStep (-1) 1 1 2 = 2 := by
  unfold gridStep
  rw [upsampGrid_single]
  norm_num

theorem simps_ones : simps [(1 : ℝ), 1] = 1 := by
  unfold simps basic_simpson
  norm_num

theorem massList_single : massList 1 [1] (-1) 1 1 1 2 = [1] := by
  unfold massList
  rw [upsampledZ_single]
  simp [list_range_one, simps_ones]

theorem trueBounds_single : trueBounds (-1) 1 1 1 2 = [-1] := by
  unfold trueBounds
  rw [gridStep_single]
  simp only [list_range_one, List.map_cons, List.map_nil]
  norm_num

theorem trueUpperBound_single : trueUpperBound (-1) 1 1 1 2 = 3 := by
  unfold trueUpperBound
  norm_num [gridStep_single]

theorem wave2vec_single : wave2vec 1 [1] (-1) 1 1 1 2 = .ok ([1], [-1], 4) := by
  rw [wave2vec_eq_ok_iff]
  refine ⟨by norm_num, ?_, by norm_num, by norm_num, by norm_num, ?_, ?_⟩
  · rw [waveKnots_single]; norm_num
  · rw [trueUpperBound_single]; norm_num
  · rw [massList_single, trueBounds_single, gridStep_single]
    norm_num

/-! ### Claim C1: the returned feature vector sums to one -/

/-- C1: whenever wave2vec returns successfully and the pre-normalization
sum of sub-band masses is nonzero, the entries of the returned
feature_vector sum to exactly 1. -/
theorem C1_feature_vector_sums_to_one (dt lower upper FFT_units : ℝ)
    (y : List ℝ) (dims upsample : ℕ) (r : List ℝ × List ℝ × ℝ)
    (h : wave2vec dt y lower upper dims FFT_units upsample = .ok r)
    (hm : (massList dt y lower upper dims FFT_units upsample).sum ≠ 0) :
    r.1.sum = 1 := by
  obtain ⟨-, -, -, -, -, -, hr⟩ := wave2vec_eq_ok_iff.1 h
  rw [hr]
  simp only []
  rw [sum_map_div]
  exact div_self hm

/-- C1 witness: the concrete successful call above returns feature vector
[1], which sums to 1. -/
theorem C1_witness :
    (([(1 : ℝ)], [(-1 : ℝ)], (4 : ℝ)) : List ℝ × List ℝ × ℝ).1.sum = 1 :=
  C1_feature_vector_sums_to_one 1 (-1) 1 1 [1] 1 2 ([1], [-1], 4) wave2vec_single
    (by rw [massList_single]; norm_num)

/-! ### Claim C3: band edges and spacing -/

theorem getD_map_range {f : ℕ → ℝ} {n j : ℕ} (hj : j < n) :
    ((List.range n).map f).getD j 0 = f j := by
  rw [List.getD_eq_getElem?_getD, List.getElem?_map, List.getElem?_range hj]
  rfl

/-- C3: on every successful call, band_edges has length dims, its j-th
entry is lower/FFT_units + j*interval_width*dw (interval_width the integer
quotient upsample/dims, dw the upsampled grid step), the returned spacing
is interval_width*dw, and consecutive band edges differ by exactly the
spacing. -/
theorem C3_band_edges_structure (dt lower upper FFT_units : ℝ)
    (y : List ℝ) (dims upsample : ℕ) (fv be : List ℝ) (sp : ℝ)
    (h : wave2vec dt y lower upper dims FFT_units upsample = .ok (fv, be, sp)) :
    be.length = dims
    ∧ (∀ j < dims, be.getD j 0
        = lower / FFT_units + (j : ℝ) * ((upsample / dims : ℕ) : ℝ)
            * gridStep lower upper FFT_units upsample)
    ∧ sp = ((upsample / dims : ℕ) : ℝ) * gridStep lower upper FFT_units upsample
    ∧ (∀ j, j + 1 < dims → be.getD (j + 1) 0 - be.getD j 0 = sp) := by
  obtain ⟨-, -, -, -, -, -, hr⟩ := wave2vec_eq_ok_iff.1 h
  rw [Prod.mk.injEq, Prod.mk.injEq] at hr
  obtain ⟨-, hbe, hsp⟩ := hr
  subst hbe
  subst hsp
  refine ⟨by unfold trueBounds; rw [List.length_map, List.length_range], ?_, rfl, ?_⟩
  · intro j hj
    unfold trueBounds
    rw [getD_map_range hj]
  · intro j hj
    unfold trueBounds
    rw [getD_map_range hj, getD_map_range (by omega : j < dims)]
    push_cast
    ring

/-- C3 witness at the concrete successful call: one band edge -1, spacing 4. -/
theorem C3_witness :
    ([(-1 : ℝ)]).length = 1
    ∧ (∀ j < 1, ([(-1 : ℝ)]).getD j 0
        = (-1) / 1 + (j : ℝ) * ((2 / 1 : ℕ) : ℝ) * gridStep (-1) 1 1 2)
    ∧ (4 : ℝ) = ((2 / 1 : ℕ) : ℝ) * gridStep (-1) 1 1 2
    ∧ (∀ j, j + 1 < 1 → ([(-1 : ℝ)]).getD (j + 1) 0 - ([(-1 : ℝ)]).getD j 0 = 4) :=
  C3_band_edges_structure 1 (-1) 1 1 [1] 1 2 [1] [-1] 4 wave2vec_single

/-! ### Claim C2: the configuration error fires exactly on the 1 percent gap -/

theorem getD_eq_zero_of_forall {l : List ℝ} (h : ∀ v ∈ l, v = 0) (i : ℕ) :
    l.getD i 0 = 0 := by
  cases hx : l[i]? with
  | none => simp [List.getD_eq_getElem?_getD, hx]
  | some v =>
    have hv := h v (List.getElem?_mem hx)
    simp [List.getD_eq_getElem?_getD, hx, hv]

theorem basic_simpson_zero {l : List ℝ} (h : ∀ v ∈ l, v = 0) (s c : ℕ) :
    basic_simpson l s c = 0 := by
  unfold basic_simpson
  apply Finset.sum_eq_zero
  intro t _
  rw [getD_eq_zero_of_forall h, getD_eq_zero_of_forall h, getD_eq_zero_of_forall h]
  ring

theorem simps_zero_of_forall {l : List ℝ} (h : ∀ v ∈ l, v = 0) : simps l = 0 := by
  unfold simps
  split
  · exact basic_simpson_zero h _ _
  · rw [basic_simpson_zero h, basic_simpson_zero h,
      getD_eq_zero_of_forall h, getD_eq_zero_of_forall h,
      getD_eq_zero_of_forall h, getD_eq_zero_of_forall h]
    norm_num

theorem simps_short {l : List ℝ} (h : l.length ≤ 1) : simps l = 0 := by
  match l with
  | [] =>
    unfold simps basic_simpson
    norm_num
  | [a] =>
    unfold simps basic_simpson
    norm_num
  | a :: b :: t => simp at h

theorem interp_nil (x : ℝ) : interp x [] = 0 := rfl

theorem fft_nil (dt : ℝ) (lp hp : Option ℝ) : fft dt [] lp hp = ([], []) := by
  cases lp <;> cases hp <;> simp [fft, fftPairs, fftBasePairs]

theorem waveKnots_nil (dt lower upper FFT_units : ℝ) :
    waveKnots dt [] lower upper FFT_units = [] := by
  simp [waveKnots, fft_nil]

theorem massList_sum_zero_of_knots_nil {dt lower upper FFT_units : ℝ} {y : List ℝ}
    {dims upsample : ℕ}
    (hk : waveKnots dt y lower upper FFT_units = []) :
    (massList dt y lower upper dims FFT_units upsample).sum = 0 := by
  apply List.sum_eq_zero
  intro x hx
  rcases List.mem_map.1 hx with ⟨j, -, rfl⟩
  apply simps_zero_of_forall
  intro v hv
  have hv2 : v ∈ upsampledZ dt y lower upper FFT_units upsample :=
    List.mem_of_mem_drop (List.mem_of_mem_take hv)
  rcases List.mem_map.1 hv2 with ⟨x', -, rfl⟩
  rw [hk]
  rfl

theorem massList_sum_zero_of_upsample_one {dt lower upper FFT_units : ℝ}
    {y : List ℝ} :
    (massList dt y lower upper 1 FFT_units 1).sum = 0 := by
  unfold massList
  rw [list_range_one]
  simp only [List.map_cons, List.map_nil, List.sum_cons, List.sum_nil, add_zero]
  apply simps_short
  calc (((upsampledZ dt y lower upper FFT_units 1).drop (0 * (1/1))).take (1/1)).length
      ≤ 1/1 := List.length_take_le _ _
    _ ≤ 1 := by norm_num

/-- C2: under well-formed inputs (dt > 0, lower < upper, 0 < dims ≤ upsample)
and a nonzero pre-normalization mass sum, wave2vec raises the
increase-the-upsampling-number ValueError exactly when the fractional gap
(upper/FFT_units - true_upper_bound) / (upper/FFT_units - lower/FFT_units)
exceeds 0.01, and returns normally otherwise. -/
theorem C2_config_error_iff_gap (dt lower upper FFT_units : ℝ) (y : List ℝ)
    (dims upsample : ℕ) (hdt : 0 < dt) (hlu : lower < upper) (hd : 0 < dims)
    (hdu : dims ≤ upsample)
    (hm : (massList dt y lower upper dims FFT_units upsample).sum ≠ 0) :
    (wave2vec dt y lower upper dims FFT_units upsample
        = .error .increaseUpsampling
      ↔ (upper / FFT_units - trueUpperBound lower upper FFT_units dims upsample)
          / (upper / FFT_units - lower / FFT_units) > 1/100)
    ∧ ((upper / FFT_units - trueUpperBound lower upper FFT_units dims upsample)
          / (upper / FFT_units - lower / FFT_units) ≤ 1/100
        → ∃ r, wave2vec dt y lower upper dims FFT_units upsample = .ok r) := by
  have hg2 : ¬ ((waveKnots dt y lower upper FFT_units).length = 0) := by
    intro h0
    exact hm (massList_sum_zero_of_knots_nil (List.length_eq_zero.1 h0))
  have hg1 : ¬ (y.length = 0) := by
    intro h0
    have hy : y = [] := List.length_eq_zero.1 h0
    subst hy
    exact hg2 (by rw [waveKnots_nil]; rfl)
  have hg3 : ¬ (upsample < 2) := by
    intro hlt
    have h1 : upsample = 1 := by omega
    have hd1 : dims = 1 := by omega
    subst h1
    subst hd1
    exact hm massList_sum_zero_of_upsample_one
  have hg4 : ¬ (dims = 0) := by omega
  have hg5 : ¬ (upsample / dims = 0) := by
    rw [Nat.div_eq_zero_iff hd]
    omega
  unfold wave2vec
  rw [if_neg hg1, if_neg hg2, if_neg hg3, if_neg hg4, if_neg hg5]
  by_cases hgap : (upper / FFT_units - trueUpperBound lower upper FFT_units dims upsample)
      / (upper / FFT_units - lower / FFT_units) > 1/100
  · rw [if_pos hgap]
    exact ⟨iff_of_true rfl hgap, fun hle => absurd hgap (not_lt.2 hle)⟩
  · rw [if_neg hgap]
    refine ⟨⟨fun habs => absurd habs (by simp), fun hg => absurd hg hgap⟩, fun _ => ⟨_, rfl⟩⟩

/-- C2 witness at the concrete instance: the gap is -1, well under 0.01, the
iff holds and the call succeeds. -/
theorem C2_witness :
    (wave2vec 1 [1] (-1) 1 1 1 2 = .error .increaseUpsampling
      ↔ (1 / 1 - trueUpperBound (-1) 1 1 1 2) / (1 / 1 - (-1) / 1) > 1/100)
    ∧ ((1 / 1 - trueUpperBound (-1) 1 1 1 2) / (1 / 1 - (-1) / 1) ≤ 1/100
        → ∃ r, wave2vec 1 [1] (-1) 1 1 1 2 = .ok r) :=
  C2_config_error_iff_gap 1 (-1) 1 1 [1] 1 2 (by norm_num) (by norm_num)
    (by norm_num) (by norm_num) (by rw [massList_single]; norm_num)

/-! ### Claim C4: invariance under positive amplitude scaling -/

theorem getD_map_mul (l : List ℝ) (c : ℝ) (i : ℕ) :
    (l.map (fun v => c * v)).getD i 0 = c * l.getD i 0 := by
  induction l generalizing i with
  | nil => simp
  | cons a l ih =>
    cases i with
    | zero => simp
    | succ i => simpa using ih i

theorem basic_simpson_smul (l : List ℝ) (c : ℝ) (s k : ℕ) :
    basic_simpson (l.map (fun v => c * v)) s k = c * basic_simpson l s k := by
  unfold basic_simpson
  rw [Finset.mul_sum]
  apply Finset.sum_congr rfl
  intro t _
  rw [getD_map_mul, getD_map_mul, getD_map_mul]
  ring

theorem simps_smul (l : List ℝ) (c : ℝ) :
    simps (l.map (fun v => c * v)) = c * simps l := by
  unfold simps
  rw [List.length_map]
  split
  · exact basic_simpson_smul l c 0 _
  · rw [basic_simpson_smul, basic_simpson_smul, getD_map_mul, getD_map_mul,
      getD_map_mul, getD_map_mul]
    ring

theorem dftMag_smul {c : ℝ} (hc : 0 ≤ c) (y : List ℝ) (k : ℕ) :
    dftMag (y.map (fun v => c * v)) k = c * dftMag y k := by
  unfold dftMag
  rw [List.length_map]
  have hterm : ∀ m ∈ Finset.range y.length,
      (((y.map (fun v => c * v)).getD m 0 : ℝ) : ℂ)
          * Complex.exp (-(2 * (Real.pi : ℂ) * Complex.I * m * k) / (y.length : ℂ))
        = (c : ℂ) * (((y.getD m 0 : ℝ) : ℂ)
          * Complex.exp (-(2 * (Real.pi : ℂ) * Complex.I * m * k) / (y.length : ℂ))) := by
    intro m _
    rw [getD_map_mul]
    push_cast
    ring
  rw [Finset.sum_congr rfl hterm, ← Finset.mul_sum, map_mul, Complex.abs_ofReal,
    abs_of_nonneg hc]

theorem zip_map_snd {α β γ : Type} (w : List α) (z : List β) (f : β → γ) :
    w.zip (z.map f) = (w.zip z).map (fun q => (q.1, f q.2)) := by
  induction w generalizing z with
  | nil => simp
  | cons a w ih =>
    cases z with
    | nil => simp
    | cons b z => simp [ih]

theorem filter_fst_map_snd {α β γ : Type} (l : List (α × β)) (f : β → γ)
    (p : α → Bool) :
    (l.map (fun q => (q.1, f q.2))).filter (fun q => p q.1)
      = (l.filter (fun q => p q.1)).map (fun q => (q.1, f q.2)) := by
  rw [List.filter_map]
  congr 1

theorem fftBasePairs_smul {c : ℝ} (hc : 0 ≤ c) (dt : ℝ) (y : List ℝ) :
    fftBasePairs dt (y.map (fun v => c * v))
      = (fftBasePairs dt y).map (fun q => (q.1, c * q.2)) := by
  simp only [fftBasePairs, List.length_map]
  have hz : (List.range y.length).map (dftMag (y.map (fun v => c * v)))
      = ((List.range y.length).map (dftMag y)).map (fun v => c * v) := by
    rw [List.map_map]
    exact List.map_congr_left fun a _ => dftMag_smul hc y a
  rw [hz, ← List.map_take]
  exact zip_map_snd _ _ _

theorem fftPairs_smul {c : ℝ} (hc : 0 ≤ c) (dt : ℝ) (y : List ℝ)
    (lp hp : Option ℝ) :
    fftPairs dt (y.map (fun v => c * v)) lp hp
      = (fftPairs dt y lp hp).map (fun q => (q.1, c * q.2)) := by
  unfold fftPairs
  cases lp with
  | none =>
    cases hp with
    | none =>
      dsimp only
      exact fftBasePairs_smul hc dt y
    | some b =>
      dsimp only
      rw [fftBasePairs_smul hc dt y]
      exact filter_fst_map_snd _ _ (fun x => decide (x < b))
  | some a =>
    cases hp with
    | none =>
      dsimp only
      rw [fftBasePairs_smul hc dt y]
      exact filter_fst_map_snd _ _ (fun x => decide (a < x))
    | some b =>
      dsimp only
      rw [fftBasePairs_smul hc dt y,
        filter_fst_map_snd _ _ (fun x => decide (a < x))]
      exact filter_fst_map_snd _ _ (fun x => decide (x < b))

theorem fft_smul {c : ℝ} (hc : 0 ≤ c) (dt : ℝ) (y : List ℝ) (lp hp : Option ℝ) :
    fft dt (y.map (fun v => c * v)) lp hp
      = ((fft dt y lp hp).1, (fft dt y lp hp).2.map (fun v => c * v)) := by
  unfold fft
  rw [fftPairs_smul hc, List.map_map, List.map_map, List.map_map]
  rfl

theorem waveKnots_smul {c : ℝ} (hc : 0 ≤ c) (dt : ℝ) (y : List ℝ)
    (lower upper FFT_units : ℝ) :
    waveKnots dt (y.map (fun v => c * v)) lower upper FFT_units
      = (waveKnots dt y lower upper FFT_units).map (fun q => (q.1, c * q.2)) := by
  unfold waveKnots
  rw [fft_smul hc]
  exact zip_map_snd _ _ _

theorem interp_smul (c x : ℝ) : ∀ ks : List (ℝ × ℝ),
    interp x (ks.map (fun q => (q.1, c * q.2))) = c * interp x ks := by
  intro ks
  induction ks with
  | nil => simp [interp]
  | cons p ks ih =>
    cases ks with
    | nil =>
      rcases p with ⟨x0, f0⟩
      simp [interp]
    | cons q ks2 =>
      rcases p with ⟨x0, f0⟩
      rcases q with ⟨x1, f1⟩
      simp only [List.map_cons] at ih ⊢
      rw [interp, interp]
      split
      · rfl
      · split
        · have h1 : c * f1 - c * f0 = c * (f1 - f0) := by ring
          rw [h1]
          ring
        · exact ih

theorem upsampledZ_smul {c : ℝ} (hc : 0 ≤ c) (dt : ℝ) (y : List ℝ)
    (lower upper FFT_units : ℝ) (upsample : ℕ) :
    upsampledZ dt (y.map (fun v => c * v)) lower upper FFT_units upsample
      = (upsampledZ dt y lower upper FFT_units upsample).map (fun v => c * v) := by
  unfold upsampledZ
  rw [waveKnots_smul hc, List.map_map]
  exact List.map_congr_left fun x _ => interp_smul c x _

theorem massList_smul {c : ℝ} (hc : 0 ≤ c) (dt : ℝ) (y : List ℝ)
    (lower upper FFT_units : ℝ) (dims upsample : ℕ) :
    massList dt (y.map (fun v => c * v)) lower upper dims FFT_units upsample
      = (massList dt y lower upper dims FFT_units upsample).map
          (fun m => c * m) := by
  unfold massList
  rw [upsampledZ_smul hc, List.map_map]
  apply List.map_congr_left
  intro j _
  simp only [Function.comp_apply]
  rw [← List.map_drop, ← List.map_take, simps_smul]

theorem sum_map_mul (l : List ℝ) (c : ℝ) :
    (l.map (fun m => c * m)).sum = c * l.sum := by
  induction l with
  | nil => simp
  | cons a l ih => simp [ih, mul_add]

/-- C4: wave2vec is invariant under positive amplitude scaling of the
waveform: if the call succeeds with result r, the call on c * waveform
(c > 0) succeeds with the very same feature vector, band edges and
spacing. -/
theorem C4_scale_invariance (dt lower upper FFT_units : ℝ) (y : List ℝ)
    (dims upsample : ℕ) (c : ℝ) (hc : 0 < c) (r : List ℝ × List ℝ × ℝ)
    (h : wave2vec dt y lower upper dims FFT_units upsample = .ok r) :
    wave2vec dt (y.map (fun v => c * v)) lower upper dims FFT_units upsample
      = .ok r := by
  obtain ⟨h1, h2, h3, h4, h5, h6, hr⟩ := wave2vec_eq_ok_iff.1 h
  rw [wave2vec_eq_ok_iff]
  refine ⟨by rwa [List.length_map], ?_, h3, h4, h5, h6, ?_⟩
  · rwa [waveKnots_smul hc.le, List.length_map]
  · rw [hr]
    congr 1
    rw [massList_smul hc.le, sum_map_mul, List.map_map]
    apply List.map_congr_left
    intro m _
    simp only [Function.comp_apply]
    exact (mul_div_mul_left m _ hc.ne').symm

/-- C4 witness: scaling the concrete successful waveform [1] by 2 returns
the identical result. -/
theorem C4_witness :
    wave2vec 1 ([(1 : ℝ)].map (fun v => 2 * v)) (-1) 1 1 1 2
      = .ok ([1], [-1], 4) :=
  C4_scale_invariance 1 (-1) 1 1 [1] 1 2 2 (by norm_num) ([1], [-1], 4)
    wave2vec_single

end AE
